import Mathlib

/-!
Shallow embedding of the `toi` TypeScript validation library (core module:
`wrap`, `allow`, `transform`, `required`, `array.items`, `obj.keys`) and
proofs of the specification claims about it.

Modelling conventions:
* JavaScript values are modelled by `JSValue`.  Arrays and plain objects
  carry an allocation identifier (`id : Nat`) so that JavaScript reference
  identity (`===` on objects) is expressible: two object values are the
  same reference exactly when they carry the same identifier.  Numbers are
  modelled as integers plus a distinguished `NaN` (no claim involves
  fractional arithmetic).
* Throwing is modelled with `Except JSError`.  `JSError.validation`
  corresponds to `ValidationError`; `JSError.other` corresponds to any
  non-`ValidationError` thrown value, identified by its tag.
* `ValidationError` (message, value, optional reasons that are either a
  positional sparse array or a keyed map) is modelled by `VError` with one
  constructor for each shape of the `reasons` field.
* A JavaScript `for (…; index < len; …)` loop is rendered as structural
  recursion on the number of remaining iterations.
-/

inductive JSValue where
  | vNull
  | vUndefined
  | vBool (b : Bool)
  | vNum (n : Int)
  | vNaN
  | vStr (s : String)
  | vArr (id : Nat) (elems : List JSValue)
  | vObj (id : Nat) (fields : List (String × JSValue))

/-- `ValidationError`: `message`, `value`, and the optional `reasons`
(absent / positional sparse array / keyed map), one constructor per shape. -/
inductive VError where
  | leaf (message : String) (value : JSValue)
  | positional (message : String) (value : JSValue) (rs : List (Option VError))
  | keyed (message : String) (value : JSValue) (rs : List (String × VError))

/-- The `value` field of a `ValidationError`. -/
def VError.value : VError → JSValue
  | .leaf _ v => v
  | .positional _ v _ => v
  | .keyed _ v _ => v

/-- The `message` field of a `ValidationError`. -/
def VError.message : VError → String
  | .leaf m _ => m
  | .positional m _ _ => m
  | .keyed m _ _ => m

/-- A thrown JavaScript error: either a `ValidationError` or any other
error value (identified by a tag, e.g. its class name and payload). -/
inductive JSError where
  | validation (e : VError)
  | other (name : String)

namespace Toi

/-- JavaScript truthiness (`!value` is `true` exactly on falsy values). -/
def truthy : JSValue → Bool
  | .vNull => false
  | .vUndefined => false
  | .vBool b => b
  | .vNum n => n != 0
  | .vNaN => false
  | .vStr s => s != ""
  | .vArr _ _ => true
  | .vObj _ _ => true

/-- `undefined === v || null === v`. -/
def isNullish : JSValue → Bool
  | .vNull => true
  | .vUndefined => true
  | _ => false

/-- JavaScript strict equality `===`: value comparison on primitives
(`NaN === x` is always false), reference comparison (allocation ids) on
arrays and objects. -/
def jsEq : JSValue → JSValue → Bool
  | .vNull, .vNull => true
  | .vUndefined, .vUndefined => true
  | .vBool a, .vBool b => a == b
  | .vNum a, .vNum b => a == b
  | .vStr a, .vStr b => a == b
  | .vArr i _, .vArr j _ => i == j
  | .vObj i _, .vObj j _ => i == j
  | _, _ => false

/-- Own-property presence, as tested by
`Object.getOwnPropertyDescriptor(value, key)` being truthy. -/
def hasOwn (v : JSValue) (key : String) : Bool :=
  match v with
  | .vObj _ fields => (fields.lookup key).isSome
  | .vArr _ elems =>
      key == "length" ||
        (match key.toNat? with
         | some i => decide (i < elems.length)
         | none => false)
  | .vStr s =>
      key == "length" ||
        (match key.toNat? with
         | some i => decide (i < s.length)
         | none => false)
  | _ => false

/-- Property read `value[key]` (own properties of the data model; reads of
absent properties yield `undefined`). -/
def getProp (v : JSValue) (key : String) : JSValue :=
  match v with
  | .vObj _ fields => (fields.lookup key).getD .vUndefined
  | .vArr _ elems =>
      if key == "length" then .vNum elems.length
      else
        match key.toNat? with
        | some i => elems.getD i .vUndefined
        | none => .vUndefined
  | .vStr s =>
      if key == "length" then .vNum s.length
      else
        match key.toNat? with
        | some i =>
            match s.toList.get? i with
            | some c => .vStr (String.mk [c])
            | none => .vUndefined
        | none => .vUndefined
  | _ => .vUndefined

/-- `value.length` read as a loop bound: `index < value.length` is false
whenever `length` is not a number, hence bound `0` in those cases. -/
def jsLen : JSValue → Nat
  | .vArr _ elems => elems.length
  | .vStr s => s.length
  | .vObj _ fields =>
      match fields.lookup "length" with
      | some (.vNum n) => n.toNat
      | _ => 0
  | _ => 0

/-- Indexed element read `value[index]`. -/
def jsIndex (v : JSValue) (i : Nat) : JSValue :=
  match v with
  | .vArr _ elems => elems.getD i .vUndefined
  | .vStr s =>
      match s.toList.get? i with
      | some c => .vStr (String.mk [c])
      | none => .vUndefined
  | .vObj _ fields => (fields.lookup (toString i)).getD .vUndefined
  | _ => .vUndefined

/-- A `Validator` value: the callable validation function together with
its debugging name (the `and` method is `Validator.and` below). -/
structure Validator where
  name : String
  fn : JSValue → Except JSError JSValue

/-- `wrap(name, func)`: a validator whose invocation calls `func`. -/
def wrap (name : String) (func : JSValue → Except JSError JSValue) : Validator :=
  ⟨name, func⟩

/-- The `and` method installed by `wrap`:
`wrap(name + ".and(" + validator.name + ")", value => validator(validatorFunction(value)))`.
A thrown error from the first stage propagates without invoking the second. -/
def Validator.and (a b : Validator) : Validator :=
  wrap (a.name ++ ".and(" ++ b.name ++ ")") fun value =>
    match a.fn value with
    | .ok y => b.fn y
    | .error e => .error e

/-- `allow(bool, failure)`: `undefined === v || null === v || bool(v)`
returns the value; otherwise throw `ValidationError(failure, v)`.  The
predicate is a JavaScript function and may itself throw (`Except`-valued). -/
def allow (bool : JSValue → Except JSError Bool) (failure : String) :
    JSValue → Except JSError JSValue :=
  fun allow =>
    if isNullish allow then .ok allow
    else
      match bool allow with
      | .ok true => .ok allow
      | .ok false => .error (.validation (.leaf failure allow))
      | .error e => .error e

/-- `transform(transformer)`: null/undefined pass through unchanged,
otherwise the transformer runs (and may throw). -/
def transform (transformer : JSValue → Except JSError JSValue) :
    JSValue → Except JSError JSValue :=
  fun value =>
    if isNullish value then .ok value
    else transformer value

/-- `required()`: throws `ValidationError` on null/undefined, otherwise
returns the value. -/
def required : Validator :=
  wrap "required" fun value =>
    if isNullish value then
      .error (.validation (.leaf "value is null or undefined" value))
    else .ok value

/-- `optional()`: accepts every value unchanged. -/
def optional : Validator :=
  wrap "optional" fun value => .ok value

/-- `typeof` for the modelled values. -/
def jsTypeof : JSValue → String
  | .vNull => "object"
  | .vUndefined => "undefined"
  | .vBool _ => "boolean"
  | .vNum _ => "number"
  | .vNaN => "number"
  | .vStr _ => "string"
  | .vArr _ _ => "object"
  | .vObj _ _ => "object"

namespace str

/-- `str.is()`: `allow(value => "string" === typeof value, "value is not string")`. -/
def is : Validator :=
  wrap "str.is" (allow (fun value => .ok (jsTypeof value == "string")) "value is not string")

end str

/-- `Number.isNaN`. -/
def isNaNv : JSValue → Bool
  | .vNaN => true
  | _ => false

namespace num

/-- `num.is()`: `"number" === typeof value && !Number.isNaN(value)`. -/
def is : Validator :=
  wrap "num.is"
    (allow (fun value => .ok (jsTypeof value == "number" && !isNaNv value))
      "value is not a number")

end num

namespace bool

/-- `bool.truthy()`: `transform(value => !!value)`. -/
def truthy : Validator :=
  wrap "bool.truthy" (transform fun value => .ok (.vBool (Toi.truthy value)))

end bool

/-- The element-wise result of the item validator that `array.items`
reports per failing index: `some e` when the item validator throws
`ValidationError e`, `none` when it succeeds or throws a defect. -/
def reasonAt (itemV : JSValue → Except JSError JSValue) (x : JSValue) : Option VError :=
  match itemV x with
  | .error (.validation e) => some e
  | _ => none

/-- The successful output of a validator on an input (`vUndefined` when it
throws; only used under hypotheses that it succeeds). -/
def okOut (V : JSValue → Except JSError JSValue) (x : JSValue) : JSValue :=
  match V x with
  | .ok y => y
  | .error _ => .vUndefined

/-- Classifier: the call threw a non-`ValidationError`. -/
def isOther : Except JSError JSValue → Bool
  | .error (.other _) => true
  | _ => false

/-- Classifier: the call threw a `ValidationError`. -/
def isVErr : Except JSError JSValue → Bool
  | .error (.validation _) => true
  | _ => false

/-- Classifier: the call returned normally. -/
def isOk : Except JSError JSValue → Bool
  | .ok _ => true
  | _ => false

namespace array

/-- The `for (let index = 0; index < value.length; index += 1)` loop body
of `array.items`, as structural recursion on the remaining iteration
count (`remaining = len - index`).  State: `output` (`Z[] | null`,
allocated with `new Array(len)` and backfilled on the first transformed
element) and `reasons` (`ValidationError[] | null`, allocated with
`new Array(len)` on the first validation failure).  Array holes read as
`undefined`/absent and are modelled by `vUndefined` / `none` entries.
A non-`ValidationError` thrown by the item validator is rethrown by
`isError` and aborts the loop. -/
def itemsLoop (itemV : JSValue → Except JSError JSValue) (value : JSValue) (len : Nat) :
    Nat → Nat → Option (List JSValue) → Option (List (Option VError)) →
    Except JSError (Option (List JSValue) × Option (List (Option VError)))
  | 0, _, output, reasons => .ok (output, reasons)
  | remaining + 1, index, output, reasons =>
    let item := jsIndex value index
    match itemV item with
    | .ok transformed =>
      let output1 :=
        if !jsEq transformed item && output.isNone then
          some ((List.range index).map (jsIndex value) ++
            List.replicate (len - index) JSValue.vUndefined)
        else output
      let output2 := output1.map fun out => out.set index transformed
      itemsLoop itemV value len remaining (index + 1) output2 reasons
    | .error (.validation ve) =>
      itemsLoop itemV value len remaining (index + 1) output
        (some ((reasons.getD (List.replicate len none)).set index (some ve)))
    | .error (.other n) => .error (.other n)

/-- `array.items(items)` applied to a value: falsy inputs are returned
unchanged; otherwise every index is attempted, collected reasons produce
one `ValidationError` carrying the original input, an allocated output
array (identity `freshId`) is returned when some element was transformed,
and otherwise the original value is returned. -/
def items (itemV : JSValue → Except JSError JSValue) (freshId : Nat) :
    JSValue → Except JSError JSValue := fun value =>
  if !truthy value then .ok value
  else
    match itemsLoop itemV value (jsLen value) (jsLen value) 0 none none with
    | .error e => .error e
    | .ok (output, reasons) =>
      match reasons with
      | some rs =>
          .error (.validation (.positional "value is an array of invalid items" value rs))
      | none =>
          match output with
          | some out => .ok (.vArr freshId out)
          | none => .ok value

end array

namespace obj

/-- One iteration of the `for (let key in structure)` loop of `obj.keys`:
if the key is not an own property of the input and not in the
allowed-missing set, a `ValidationError` naming the key is thrown and at
once caught into `reasons`; otherwise the key validator runs on
`value[key]` (which reads `undefined` for an absent key), its output is
recorded in `output`, a thrown `ValidationError` is recorded in `reasons`,
and any other thrown error is rethrown by `isError`. -/
def keysStep (missing : List String) (value : JSValue) (key : String)
    (V : JSValue → Except JSError JSValue)
    (output : List (String × JSValue)) (reasons : Option (List (String × VError))) :
    Except JSError (List (String × JSValue) × Option (List (String × VError))) :=
  if !hasOwn value key && !missing.contains key then
    .ok (output,
      some ((reasons.getD []) ++ [(key, .leaf (s!"key {key} in value is missing") (.vStr key))]))
  else
    match V (getProp value key) with
    | .ok y => .ok (output ++ [(key, y)], reasons)
    | .error (.validation ve) => .ok (output, some ((reasons.getD []) ++ [(key, ve)]))
    | .error (.other n) => .error (.other n)

/-- The whole `for (let key in structure)` loop: keys are visited in the
declaration order of the structure. -/
def keysLoop (missing : List String) (value : JSValue) :
    List (String × (JSValue → Except JSError JSValue)) →
    List (String × JSValue) → Option (List (String × VError)) →
    Except JSError (List (String × JSValue) × Option (List (String × VError)))
  | [], output, reasons => .ok (output, reasons)
  | (key, V) :: rest, output, reasons =>
    match keysStep missing value key V output reasons with
    | .ok (output1, reasons1) => keysLoop missing value rest output1 reasons1
    | .error e => .error e

/-- `obj.keys(structure, options)` applied to a value: null/undefined pass
through; otherwise every declared key is processed in order into a freshly
allocated output record (identity `freshId`), and collected reasons
produce one `ValidationError` carrying the original input. -/
def keys (struct : List (String × (JSValue → Except JSError JSValue)))
    (missing : List String) (freshId : Nat) : JSValue → Except JSError JSValue := fun value =>
  if isNullish value then .ok value
  else
    match keysLoop missing value struct [] none with
    | .error e => .error e
    | .ok (output, reasons) =>
      match reasons with
      | some rs => .error (.validation (.keyed "value does not match structure" value rs))
      | none => .ok (.vObj freshId output)

/-- Per-key classifier used in hypotheses: the step for this key throws a
non-`ValidationError` (possible only when the key validator actually runs). -/
def stepOther (missing : List String) (value : JSValue) (key : String)
    (V : JSValue → Except JSError JSValue) : Bool :=
  (hasOwn value key || missing.contains key) && isOther (V (getProp value key))

/-- Per-key classifier used in hypotheses: the step for this key records a
successful output (the key is present or allowed missing, and the key
validator returns normally). -/
def stepOk (missing : List String) (value : JSValue) (key : String)
    (V : JSValue → Except JSError JSValue) : Bool :=
  (hasOwn value key || missing.contains key) && isOk (V (getProp value key))

end obj

end Toi

/-- The list whose entry at `i` is `f i` for `i < cut` and `d` from `cut`
on: the intermediate state of a sparse JavaScript array of length `len`
filled left-to-right (used to describe the aggregator loop states). -/
def rangeIf {α : Type} (len cut : Nat) (f : Nat → α) (d : α) : List α :=
  (List.range len).map fun i => if i < cut then f i else d

/-- C1: validators built by the leaf constructors `allow`/`transform` pass
`null` and `undefined` through unchanged without invoking the wrapped
predicate/transform (the result is the same for every predicate/transform,
including ones that always throw), while `required()` fails on both with a
`ValidationError`. -/
theorem toi_leaf_nullability_contract
    (name : String) (p : JSValue → Except JSError Bool) (f : String)
    (t : JSValue → Except JSError JSValue) :
    (Toi.wrap name (Toi.allow p f)).fn .vNull = .ok .vNull ∧
    (Toi.wrap name (Toi.allow p f)).fn .vUndefined = .ok .vUndefined ∧
    (Toi.wrap name (Toi.transform t)).fn .vNull = .ok .vNull ∧
    (Toi.wrap name (Toi.transform t)).fn .vUndefined = .ok .vUndefined ∧
    Toi.required.fn .vNull =
      .error (.validation (.leaf "value is null or undefined" .vNull)) ∧
    Toi.required.fn .vUndefined =
      .error (.validation (.leaf "value is null or undefined" .vUndefined)) :=
  ⟨rfl, rfl, rfl, rfl, rfl, rfl⟩

/-- C2: `a.and(b)` applied to `x` computes `b(a(x))`; when `a(x)` throws
(either error kind), the thrown value propagates unchanged and `b` is never
invoked (the error branch of the characterisation does not depend on `b`,
which is universally quantified). -/
theorem toi_and_composition (a b : Toi.Validator) (x : JSValue) :
    (a.and b).fn x =
      match a.fn x with
      | .ok y => b.fn y
      | .error e => .error e :=
  rfl

theorem rangeIf_length {α : Type} (len cut : Nat) (f : Nat → α) (d : α) :
    (rangeIf len cut f d).length = len := by
  simp [rangeIf]

theorem rangeIf_getElem {α : Type} {len cut : Nat} {f : Nat → α} {d : α}
    {j : Nat} (hj : j < len) :
    GetElem.getElem (rangeIf len cut f d) j (by simpa [rangeIf] using hj) =
      if j < cut then f j else d := by
  simp [rangeIf]

theorem rangeIf_getD {α : Type} {len cut : Nat} {f : Nat → α} {d : α}
    {j : Nat} (hj : j < len) :
    (rangeIf len cut f d).getD j d = if j < cut then f j else d := by
  rw [List.getD_eq_getElem _ _ (by simpa [rangeIf] using hj)]
  exact rangeIf_getElem hj

theorem rangeIf_succ_of_eq {α : Type} {len cut : Nat} {f : Nat → α} {d : α}
    (h : f cut = d) : rangeIf len (cut + 1) f d = rangeIf len cut f d := by
  apply List.ext_getElem (by simp [rangeIf])
  intro j hj hj2
  rw [rangeIf_getElem (by simpa [rangeIf] using hj), rangeIf_getElem (by simpa [rangeIf] using hj)]
  rcases Nat.lt_trichotomy j cut with hlt | heq | hgt
  · simp [hlt, Nat.lt_succ_of_lt hlt]
  · subst heq; simp [h]
  · have h1 : ¬ j < cut + 1 := by omega
    have h2 : ¬ j < cut := by omega
    simp [h1, h2]

theorem set_eq_rangeIf {α : Type} {base : List α} {f : Nat → α} {d : α} {len cut : Nat}
    (hlen : base.length = len) (hcut : cut < len)
    (hchar : ∀ j, j < len → base.getD j d = if j < cut then f j else d) :
    base.set cut (f cut) = rangeIf len (cut + 1) f d := by
  apply List.ext_getElem (by simp [rangeIf, hlen])
  intro j hj hj2
  have hjlen : j < len := by simpa [hlen] using hj
  rw [rangeIf_getElem hjlen]
  rw [List.getElem_set]
  have hbase := hchar j hjlen
  rw [List.getD_eq_getElem _ _ (by omega)] at hbase
  rcases Nat.lt_trichotomy j cut with hlt | heq | hgt
  · have : cut ≠ j := by omega
    simp [this, hbase, hlt, Nat.lt_succ_of_lt hlt]
  · subst heq; simp
  · have h1 : cut ≠ j := by omega
    have h2 : ¬ j < cut + 1 := by omega
    have h3 : ¬ j < cut := by omega
    simp [h1, hbase, h2, h3]

theorem backfill_getD {α : Type} {g : Nat → α} {d : α} {len index : Nat}
    (hle : index ≤ len) {j : Nat} (hj : j < len) :
    ((List.range index).map g ++ List.replicate (len - index) d).getD j d =
      if j < index then g j else d := by
  by_cases hlt : j < index
  · rw [List.getD_append _ _ _ _ (by simpa using hlt)]
    rw [List.getD_eq_getElem _ _ (by simpa using hlt)]
    simp [hlt]
  · simp only [hlt, if_false]
    rw [List.getD_append_right _ _ _ _ (by simpa using Nat.le_of_not_lt hlt)]
    by_cases hr : j - (List.range index).length < len - index
    · rw [List.getD_eq_getElem _ _ (by simpa using hr)]
      simp
    · exact List.getD_eq_default _ _ (by simpa using Nat.le_of_not_lt hr)

theorem rangeIf_full {α : Type} {g : JSValue → α} {d : α} {id : Nat} {elems : List JSValue} :
    rangeIf elems.length elems.length
      (fun i => g (Toi.jsIndex (.vArr id elems) i)) d = elems.map g := by
  apply List.ext_getElem (by simp [rangeIf])
  intro j hj hj2
  have hjlen : j < elems.length := by simpa using hj2
  rw [rangeIf_getElem hjlen]
  simp only [hjlen, if_true, Toi.jsIndex, List.getElem_map]
  rw [List.getD_eq_getElem _ _ hjlen]

open Toi

theorem reasonAt_eq_none_of_ok {itemV : JSValue → Except JSError JSValue} {x y : JSValue}
    (h : itemV x = .ok y) : Toi.reasonAt itemV x = none := by
  simp [Toi.reasonAt, h]

theorem itemsLoop_reasons_spec (itemV : JSValue → Except JSError JSValue)
    (value : JSValue) (len : Nat) :
    ∀ remaining index output reasons,
      index + remaining = len →
      (∀ i, index ≤ i → i < len → isOther (itemV (Toi.jsIndex value i)) = false) →
      ((reasons = none ∧ ∀ i, i < index → reasonAt itemV (Toi.jsIndex value i) = none) ∨
        (reasons = some (rangeIf len index (fun i => reasonAt itemV (Toi.jsIndex value i)) none) ∧
          ∃ i, i < index ∧ reasonAt itemV (Toi.jsIndex value i) ≠ none)) →
      ∃ O R, Toi.array.itemsLoop itemV value len remaining index output reasons = .ok (O, R) ∧
        ((R = none ∧ ∀ i, i < len → reasonAt itemV (Toi.jsIndex value i) = none) ∨
          (R = some (rangeIf len len (fun i => reasonAt itemV (Toi.jsIndex value i)) none) ∧
            ∃ i, i < len ∧ reasonAt itemV (Toi.jsIndex value i) ≠ none)) := by
  intro remaining
  induction remaining with
  | zero =>
    intro index output reasons hsum _hno hinv
    have : index = len := by omega
    subst this
    exact ⟨output, reasons, rfl, hinv⟩
  | succ remaining ih =>
    intro index output reasons hsum hno hinv
    have hidx : index < len := by omega
    cases hcall : itemV (Toi.jsIndex value index) with
    | ok t =>
      have hra : reasonAt itemV (Toi.jsIndex value index) = none :=
        reasonAt_eq_none_of_ok hcall
      have hnext :
          (reasons = none ∧ ∀ i, i < index + 1 → reasonAt itemV (Toi.jsIndex value i) = none) ∨
          (reasons = some (rangeIf len (index + 1)
              (fun i => reasonAt itemV (Toi.jsIndex value i)) none) ∧
            ∃ i, i < index + 1 ∧ reasonAt itemV (Toi.jsIndex value i) ≠ none) := by
        rcases hinv with ⟨hr, hpre⟩ | ⟨hr, i0, hi0, hne⟩
        · left
          refine ⟨hr, fun i hi => ?_⟩
          rcases Nat.lt_or_ge i index with h | h
          · exact hpre i h
          · have : i = index := by omega
            subst this; exact hra
        · right
          refine ⟨?_, i0, by omega, hne⟩
          rw [hr, rangeIf_succ_of_eq hra]
      have := ih (index + 1)
        (Option.map (fun out => out.set index t)
          (if !Toi.jsEq t (Toi.jsIndex value index) && output.isNone then
            some ((List.range index).map (Toi.jsIndex value) ++
              List.replicate (len - index) JSValue.vUndefined)
          else output))
        reasons (by omega)
        (fun i h1 h2 => hno i (by omega) h2) hnext
      rcases this with ⟨O, R, heq, hpost⟩
      exact ⟨O, R, by simp only [Toi.array.itemsLoop, hcall]; exact heq, hpost⟩
    | error e =>
      cases e with
      | validation ve =>
        have hra : reasonAt itemV (Toi.jsIndex value index) = some ve := by
          simp [reasonAt, hcall]
        have hset :
            (reasons.getD (List.replicate len none)).set index (some ve) =
              rangeIf len (index + 1) (fun i => reasonAt itemV (Toi.jsIndex value i)) none := by
          rcases hinv with ⟨hr, hpre⟩ | ⟨hr, _⟩
          · subst hr
            have := @set_eq_rangeIf (Option VError)
              (List.replicate len none)
              (fun i => reasonAt itemV (Toi.jsIndex value i)) none
              len index (by simp) hidx ?_
            · simpa [hra] using this
            · intro j hj
              have hrep : (List.replicate len (none : Option VError)).getD j none = none := by
                rw [List.getD_eq_getElem _ _ (by simpa using hj)]
                simp
              rw [hrep]
              by_cases hlt : j < index
              · simp [hlt, hpre j hlt]
              · simp [hlt]
          · subst hr
            have := @set_eq_rangeIf (Option VError)
              (rangeIf len index (fun i => reasonAt itemV (Toi.jsIndex value i)) none)
              (fun i => reasonAt itemV (Toi.jsIndex value i)) none
              len index (rangeIf_length _ _ _ _) hidx ?_
            · simpa [hra] using this
            · intro j hj
              exact rangeIf_getD hj
        have hnext :
            ((some ((reasons.getD (List.replicate len none)).set index (some ve)) :
                Option (List (Option VError))) = none ∧
              ∀ i, i < index + 1 → reasonAt itemV (Toi.jsIndex value i) = none) ∨
            ((some ((reasons.getD (List.replicate len none)).set index (some ve)) :
                Option (List (Option VError))) = some (rangeIf len (index + 1)
                (fun i => reasonAt itemV (Toi.jsIndex value i)) none) ∧
              ∃ i, i < index + 1 ∧ reasonAt itemV (Toi.jsIndex value i) ≠ none) := by
          right
          refine ⟨by rw [hset], index, by omega, by rw [hra]; simp⟩
        have := ih (index + 1) output
          (some ((reasons.getD (List.replicate len none)).set index (some ve)))
          (by omega) (fun i h1 h2 => hno i (by omega) h2) hnext
        rcases this with ⟨O, R, heq, hpost⟩
        exact ⟨O, R, by simp only [Toi.array.itemsLoop, hcall]; exact heq, hpost⟩
      | other n =>
        have := hno index (Nat.le_refl _) hidx
        rw [hcall] at this
        simp [isOther] at this

theorem okOut_eq_of_ok {V : JSValue → Except JSError JSValue} {x y : JSValue}
    (h : V x = .ok y) : Toi.okOut V x = y := by
  simp [Toi.okOut, h]

theorem itemsLoop_output_spec (itemV : JSValue → Except JSError JSValue)
    (value : JSValue) (len : Nat)
    (Hok : ∀ i, i < len → isOk (itemV (jsIndex value i)) = true)
    (Hheap : ∀ i, i < len → jsEq (okOut itemV (jsIndex value i)) (jsIndex value i) = true →
      okOut itemV (jsIndex value i) = jsIndex value i) :
    ∀ remaining index output reasons,
      index + remaining = len →
      ((output = none ∧ ∀ i, i < index →
          jsEq (okOut itemV (jsIndex value i)) (jsIndex value i) = true) ∨
        (output = some (rangeIf len index (fun i => okOut itemV (jsIndex value i)) .vUndefined) ∧
          ∃ i, i < index ∧ jsEq (okOut itemV (jsIndex value i)) (jsIndex value i) = false)) →
      ∃ O, Toi.array.itemsLoop itemV value len remaining index output reasons = .ok (O, reasons) ∧
        ((O = none ∧ ∀ i, i < len →
            jsEq (okOut itemV (jsIndex value i)) (jsIndex value i) = true) ∨
          (O = some (rangeIf len len (fun i => okOut itemV (jsIndex value i)) .vUndefined) ∧
            ∃ i, i < len ∧ jsEq (okOut itemV (jsIndex value i)) (jsIndex value i) = false)) := by
  intro remaining
  induction remaining with
  | zero =>
    intro index output reasons hsum hinv
    have : index = len := by omega
    subst this
    exact ⟨output, rfl, hinv⟩
  | succ remaining ih =>
    intro index output reasons hsum hinv
    have hidx : index < len := by omega
    have hok := Hok index hidx
    cases hcall : itemV (jsIndex value index) with
    | error e => rw [hcall] at hok; simp [isOk] at hok
    | ok t =>
      have hoo : okOut itemV (jsIndex value index) = t := okOut_eq_of_ok hcall
      by_cases hsame : jsEq t (jsIndex value index) = true
      · -- no transformation at this index: `transformed !== item` is false
        have hcond : (!jsEq t (jsIndex value index) && output.isNone) = false := by
          simp [hsame]
        have hnext :
            ((Option.map (fun out => out.set index t) output = none ∧ ∀ i, i < index + 1 →
                jsEq (okOut itemV (jsIndex value i)) (jsIndex value i) = true) ∨
              (Option.map (fun out => out.set index t) output =
                  some (rangeIf len (index + 1)
                    (fun i => okOut itemV (jsIndex value i)) .vUndefined) ∧
                ∃ i, i < index + 1 ∧
                  jsEq (okOut itemV (jsIndex value i)) (jsIndex value i) = false)) := by
          rcases hinv with ⟨ho, hpre⟩ | ⟨ho, i0, hi0, hne⟩
          · left
            subst ho
            refine ⟨rfl, fun i hi => ?_⟩
            rcases Nat.lt_or_ge i index with h | h
            · exact hpre i h
            · have : i = index := by omega
              subst this; rw [hoo]; exact hsame
          · right
            subst ho
            refine ⟨?_, i0, by omega, hne⟩
            simp only [Option.map_some']
            congr 1
            have := @set_eq_rangeIf JSValue
              (rangeIf len index (fun i => okOut itemV (jsIndex value i)) .vUndefined)
              (fun i => okOut itemV (jsIndex value i)) JSValue.vUndefined
              len index (rangeIf_length _ _ _ _) hidx
              (fun j hj => rangeIf_getD hj)
            simpa [hoo] using this
        have := ih (index + 1) (Option.map (fun out => out.set index t) output) reasons
          (by omega) hnext
        rcases this with ⟨O, heq, hpost⟩
        refine ⟨O, ?_, hpost⟩
        simp only [Toi.array.itemsLoop, hcall, hcond, Bool.false_eq_true, if_false]
        exact heq
      · -- transformation: `transformed !== item` is true
        have hdiff : jsEq t (jsIndex value index) = false := by
          cases h : jsEq t (jsIndex value index)
          · rfl
          · exact absurd h hsame
        rcases hinv with ⟨ho, hpre⟩ | ⟨ho, i0, hi0, hne⟩
        · -- output not yet allocated: allocate and backfill
          subst ho
          have hcond : (!jsEq t (jsIndex value index) && Option.isNone (none : Option (List JSValue))) = true := by
            simp [hdiff]
          have hbase :
              ((List.range index).map (jsIndex value) ++
                  List.replicate (len - index) JSValue.vUndefined).set index t =
                rangeIf len (index + 1) (fun i => okOut itemV (jsIndex value i)) .vUndefined := by
            have := @set_eq_rangeIf JSValue
              ((List.range index).map (jsIndex value) ++
                List.replicate (len - index) JSValue.vUndefined)
              (fun i => okOut itemV (jsIndex value i)) JSValue.vUndefined
              len index (by simp; omega) hidx ?_
            · simpa [hoo] using this
            · intro j hj
              rw [backfill_getD (Nat.le_of_lt hidx) hj]
              by_cases hlt : j < index
              · have := Hheap j (by omega) (hpre j hlt)
                simp [hlt, this]
              · simp [hlt]
          have hnext :
              ((some (((List.range index).map (jsIndex value) ++
                    List.replicate (len - index) JSValue.vUndefined).set index t) = none ∧
                  ∀ i, i < index + 1 →
                    jsEq (okOut itemV (jsIndex value i)) (jsIndex value i) = true) ∨
                (some (((List.range index).map (jsIndex value) ++
                    List.replicate (len - index) JSValue.vUndefined).set index t) =
                    some (rangeIf len (index + 1)
                      (fun i => okOut itemV (jsIndex value i)) .vUndefined) ∧
                  ∃ i, i < index + 1 ∧
                    jsEq (okOut itemV (jsIndex value i)) (jsIndex value i) = false)) := by
            right
            refine ⟨by rw [hbase], index, by omega, by rw [hoo]; exact hdiff⟩
          have := ih (index + 1)
            (some (((List.range index).map (jsIndex value) ++
              List.replicate (len - index) JSValue.vUndefined).set index t)) reasons
            (by omega) hnext
          rcases this with ⟨O, heq, hpost⟩
          refine ⟨O, ?_, hpost⟩
          simp only [Toi.array.itemsLoop, hcall, hcond, if_true, Option.map_some']
          exact heq
        · -- output already allocated
          subst ho
          have hcond : (!jsEq t (jsIndex value index) &&
              Option.isNone (some (rangeIf len index
                (fun i => okOut itemV (jsIndex value i)) .vUndefined))) = false := by
            simp
          have hset :
              (rangeIf len index (fun i => okOut itemV (jsIndex value i)) .vUndefined).set index t =
                rangeIf len (index + 1) (fun i => okOut itemV (jsIndex value i)) .vUndefined := by
            have := @set_eq_rangeIf JSValue
              (rangeIf len index (fun i => okOut itemV (jsIndex value i)) .vUndefined)
              (fun i => okOut itemV (jsIndex value i)) JSValue.vUndefined
              len index (rangeIf_length _ _ _ _) hidx
              (fun j hj => rangeIf_getD hj)
            simpa [hoo] using this
          have hnext :
              ((some ((rangeIf len index
                    (fun i => okOut itemV (jsIndex value i)) .vUndefined).set index t) = none ∧
                  ∀ i, i < index + 1 →
                    jsEq (okOut itemV (jsIndex value i)) (jsIndex value i) = true) ∨
                (some ((rangeIf len index
                    (fun i => okOut itemV (jsIndex value i)) .vUndefined).set index t) =
                    some (rangeIf len (index + 1)
                      (fun i => okOut itemV (jsIndex value i)) .vUndefined) ∧
                  ∃ i, i < index + 1 ∧
                    jsEq (okOut itemV (jsIndex value i)) (jsIndex value i) = false)) := by
            right
            exact ⟨by rw [hset], i0, by omega, hne⟩
          have := ih (index + 1)
            (some ((rangeIf len index
              (fun i => okOut itemV (jsIndex value i)) .vUndefined).set index t)) reasons
            (by omega) hnext
          rcases this with ⟨O, heq, hpost⟩
          refine ⟨O, ?_, hpost⟩
          simp only [Toi.array.itemsLoop, hcall, hcond, Bool.false_eq_true, if_false, Option.map_some']
          exact heq

theorem jsIndex_arr (id : Nat) (elems : List JSValue) {i : Nat} (hi : i < elems.length) :
    jsIndex (.vArr id elems) i = elems[i] := by
  simp only [jsIndex]
  exact List.getD_eq_getElem _ _ hi

theorem reasonAt_ne_none_of_isVErr {itemV : JSValue → Except JSError JSValue} {x : JSValue}
    (h : isVErr (itemV x) = true) : reasonAt itemV x ≠ none := by
  unfold Toi.isVErr at h
  unfold Toi.reasonAt
  cases hc : itemV x with
  | ok y => rw [hc] at h; simp at h
  | error e =>
    cases e with
    | validation ve => simp
    | other n => rw [hc] at h; simp at h

/-- C3: when the item validator fails with a `ValidationError` on at least
one element (and throws no other error kind anywhere, the case covered by
C6), `array.items` still attempts every index — the failure of every
failing index is recorded — and throws a single `ValidationError` whose
`value` is the original input array and whose `reasons` is the positional
list of the input's length with a `ValidationError` entry exactly at each
failing index and `none` at indices that passed. -/
theorem toi_items_collects_all_failures (itemV : JSValue → Except JSError JSValue)
    (freshId id : Nat) (elems : List JSValue)
    (hno : ∀ x ∈ elems, isOther (itemV x) = false)
    (hfail : ∃ x ∈ elems, isVErr (itemV x) = true) :
    Toi.array.items itemV freshId (.vArr id elems) =
      .error (.validation (.positional "value is an array of invalid items" (.vArr id elems)
        (elems.map (reasonAt itemV)))) := by
  have hno2 : ∀ i, 0 ≤ i → i < elems.length →
      isOther (itemV (jsIndex (.vArr id elems) i)) = false := by
    intro i _ hi
    rw [jsIndex_arr id elems hi]
    exact hno _ (List.getElem_mem hi)
  have := itemsLoop_reasons_spec itemV (.vArr id elems) elems.length elems.length 0 none none
    (by omega) hno2 (Or.inl ⟨rfl, by omega⟩)
  rcases this with ⟨O, R, heq, hpost⟩
  have hR : R = some (rangeIf elems.length elems.length
      (fun i => reasonAt itemV (jsIndex (.vArr id elems) i)) none) := by
    rcases hpost with ⟨_, hall⟩ | ⟨hR, _⟩
    · exfalso
      rcases hfail with ⟨x, hx, hv⟩
      rcases List.mem_iff_getElem.mp hx with ⟨i, hi, rfl⟩
      apply reasonAt_ne_none_of_isVErr hv
      have := hall i hi
      rwa [jsIndex_arr id elems hi] at this
    · exact hR
  subst hR
  simp only [Toi.array.items, Toi.truthy, Bool.not_true, Bool.false_eq_true, if_false,
    Toi.jsLen] at heq ⊢
  rw [heq, rangeIf_full]

/-- C10: `array.items` returns any falsy input unchanged without invoking
the item validator (the item validator is universally quantified, so even
an always-throwing one is never consulted); this covers not only `null`
and `undefined` but also `0`, the empty string, `false` and `NaN`. -/
theorem toi_items_falsy_passthrough (itemV : JSValue → Except JSError JSValue)
    (freshId : Nat) (v : JSValue) (h : truthy v = false) :
    Toi.array.items itemV freshId v = .ok v := by
  simp [Toi.array.items, h]

/-- C4: sequence aggregator allocation behaviour.  (1) An empty input
array succeeds returning itself.  (2)–(3) under the heap-consistency
property of JavaScript references (`hheap`: an output that is
strictly-equal (`===`) to its input element is that element — automatic in
a real heap, stated explicitly over the allocation-id model) and with
every element validating: if no element is transformed (every per-element
output is strictly equal to the element), the original array itself (same
reference/id) is returned; if some element is transformed, a freshly
allocated array (id `freshId`) holding the per-element outputs is
returned, which is not strictly equal to the input array when `freshId`
differs from the input's allocation id. -/
theorem toi_items_identity_preservation (itemV : JSValue → Except JSError JSValue)
    (freshId id : Nat) (elems : List JSValue) :
    (Toi.array.items itemV freshId (.vArr id []) = .ok (.vArr id [])) ∧
    ((hok : ∀ x ∈ elems, isOk (itemV x) = true) →
     (hheap : ∀ x ∈ elems, jsEq (okOut itemV x) x = true → okOut itemV x = x) →
     (((∀ x ∈ elems, jsEq (okOut itemV x) x = true) →
         Toi.array.items itemV freshId (.vArr id elems) = .ok (.vArr id elems)) ∧
      ((∃ x ∈ elems, jsEq (okOut itemV x) x = false) →
         Toi.array.items itemV freshId (.vArr id elems) =
           .ok (.vArr freshId (elems.map (okOut itemV))) ∧
         (freshId ≠ id →
           jsEq (.vArr freshId (elems.map (okOut itemV))) (.vArr id elems) = false)))) := by
  constructor
  · rfl
  · intro hok hheap
    have hok2 : ∀ i, i < elems.length → isOk (itemV (jsIndex (.vArr id elems) i)) = true := by
      intro i hi
      rw [jsIndex_arr id elems hi]
      exact hok _ (List.getElem_mem hi)
    have hheap2 : ∀ i, i < elems.length →
        jsEq (okOut itemV (jsIndex (.vArr id elems) i)) (jsIndex (.vArr id elems) i) = true →
        okOut itemV (jsIndex (.vArr id elems) i) = jsIndex (.vArr id elems) i := by
      intro i hi
      rw [jsIndex_arr id elems hi]
      exact hheap _ (List.getElem_mem hi)
    have := itemsLoop_output_spec itemV (.vArr id elems) elems.length hok2 hheap2
      elems.length 0 none none (by omega) (Or.inl ⟨rfl, by omega⟩)
    rcases this with ⟨O, heq, hpost⟩
    constructor
    · intro hsame
      have hO : O = none := by
        rcases hpost with ⟨hO, _⟩ | ⟨_, i0, hi0, hne⟩
        · exact hO
        · exfalso
          have := hsame _ (List.getElem_mem hi0)
          rw [← jsIndex_arr id elems hi0] at this
          rw [this] at hne
          simp at hne
      subst hO
      simp only [Toi.array.items, Toi.truthy, Bool.not_true, Bool.false_eq_true, if_false,
        Toi.jsLen]
      rw [heq]
    · intro hdiff
      have hO : O = some (rangeIf elems.length elems.length
          (fun i => okOut itemV (jsIndex (.vArr id elems) i)) .vUndefined) := by
        rcases hpost with ⟨_, hall⟩ | ⟨hO, _⟩
        · exfalso
          rcases hdiff with ⟨x, hx, hv⟩
          rcases List.mem_iff_getElem.mp hx with ⟨i, hi, rfl⟩
          have := hall i hi
          rw [jsIndex_arr id elems hi] at this
          rw [this] at hv
          simp at hv
        · exact hO
      subst hO
      constructor
      · simp only [Toi.array.items, Toi.truthy, Bool.not_true, Bool.false_eq_true, if_false,
          Toi.jsLen]
        rw [heq, rangeIf_full]
      · intro hne
        simp only [Toi.jsEq]
        simpa using hne

theorem itemsLoop_other_spec (itemV : JSValue → Except JSError JSValue)
    (value : JSValue) (len : Nat) :
    ∀ remaining index output reasons j n,
      index + remaining = len → index ≤ j → j < len →
      (∀ i, index ≤ i → i < j → isOther (itemV (jsIndex value i)) = false) →
      itemV (jsIndex value j) = .error (.other n) →
      Toi.array.itemsLoop itemV value len remaining index output reasons = .error (.other n) := by
  intro remaining
  induction remaining with
  | zero =>
    intro index output reasons j n hsum hij hjlen _ _
    omega
  | succ remaining ih =>
    intro index output reasons j n hsum hij hjlen hpre hthrow
    by_cases hje : index = j
    · subst hje
      simp only [Toi.array.itemsLoop, hthrow]
    · have hlt : index < j := by omega
      cases hcall : itemV (jsIndex value index) with
      | ok t =>
        simp only [Toi.array.itemsLoop, hcall]
        exact ih (index + 1) _ reasons j n (by omega) (by omega) hjlen
          (fun i h1 h2 => hpre i (by omega) h2) hthrow
      | error e =>
        cases e with
        | validation ve =>
          simp only [Toi.array.itemsLoop, hcall]
          exact ih (index + 1) output _ j n (by omega) (by omega) hjlen
            (fun i h1 h2 => hpre i (by omega) h2) hthrow
        | other m =>
          exfalso
          have := hpre index (Nat.le_refl _) hlt
          rw [hcall] at this
          simp [isOther] at this

theorem itemsLoop_no_validation_error (itemV : JSValue → Except JSError JSValue)
    (value : JSValue) (len : Nat) :
    ∀ remaining index output reasons e,
      Toi.array.itemsLoop itemV value len remaining index output reasons = .error e →
      ∃ n, e = .other n := by
  intro remaining
  induction remaining with
  | zero =>
    intro index output reasons e h
    simp only [Toi.array.itemsLoop] at h
    exact Except.noConfusion h
  | succ remaining ih =>
    intro index output reasons e h
    cases hcall : itemV (jsIndex value index) with
    | ok t =>
      simp only [Toi.array.itemsLoop, hcall] at h
      exact ih _ _ _ _ h
    | error e2 =>
      cases e2 with
      | validation ve =>
        simp only [Toi.array.itemsLoop, hcall] at h
        exact ih _ _ _ _ h
      | other n =>
        simp only [Toi.array.itemsLoop, hcall] at h
        cases h
        exact ⟨n, rfl⟩

theorem keysStep_some_stays {missing : List String} {value : JSValue} {key : String}
    {V : JSValue → Except JSError JSValue} {output : List (String × JSValue)}
    {rs : List (String × VError)} {o : List (String × JSValue)}
    {r : Option (List (String × VError))}
    (h : Toi.obj.keysStep missing value key V output (some rs) = .ok (o, r)) :
    ∃ rs2, r = some rs2 := by
  unfold Toi.obj.keysStep at h
  by_cases hc : (!hasOwn value key && !missing.contains key) = true
  · rw [if_pos hc] at h
    cases h
    exact ⟨_, rfl⟩
  · rw [if_neg hc] at h
    cases hcall : V (getProp value key) with
    | ok y => rw [hcall] at h; cases h; exact ⟨rs, rfl⟩
    | error e =>
      cases e with
      | validation ve => rw [hcall] at h; cases h; exact ⟨_, rfl⟩
      | other n => rw [hcall] at h; cases h

theorem keysStep_ok_inversion {missing : List String} {value : JSValue} {key : String}
    {V : JSValue → Except JSError JSValue} {output : List (String × JSValue)}
    {reasons : Option (List (String × VError))} {o : List (String × JSValue)}
    (h : Toi.obj.keysStep missing value key V output reasons = .ok (o, none)) :
    reasons = none ∧ ∃ y, V (getProp value key) = .ok y ∧ o = output ++ [(key, y)] := by
  unfold Toi.obj.keysStep at h
  by_cases hc : (!hasOwn value key && !missing.contains key) = true
  · rw [if_pos hc] at h
    cases h
  · rw [if_neg hc] at h
    cases hcall : V (getProp value key) with
    | ok y =>
      rw [hcall] at h
      cases h
      exact ⟨rfl, y, rfl, rfl⟩
    | error e =>
      cases e with
      | validation ve => rw [hcall] at h; cases h
      | other n => rw [hcall] at h; cases h

theorem keysStep_no_other_ok {missing : List String} {value : JSValue} {key : String}
    {V : JSValue → Except JSError JSValue}
    (hno : Toi.obj.stepOther missing value key V = false)
    (output : List (String × JSValue)) (reasons : Option (List (String × VError))) :
    ∃ o r, Toi.obj.keysStep missing value key V output reasons = .ok (o, r) := by
  unfold Toi.obj.keysStep
  by_cases hc : (!hasOwn value key && !missing.contains key) = true
  · rw [if_pos hc]
    exact ⟨_, _, rfl⟩
  · rw [if_neg hc]
    cases hcall : V (getProp value key) with
    | ok y => exact ⟨_, _, rfl⟩
    | error e =>
      cases e with
      | validation ve => exact ⟨_, _, rfl⟩
      | other n =>
        exfalso
        unfold Toi.obj.stepOther at hno
        rw [hcall] at hno
        have : (hasOwn value key || missing.contains key) = true := by
          cases h1 : hasOwn value key
          · cases h2 : missing.contains key
            · exfalso; apply hc; rw [h1, h2]; rfl
            · rfl
          · rfl
        rw [this] at hno
        simp [isOther] at hno

theorem keysStep_ok_of_stepOk {missing : List String} {value : JSValue} {key : String}
    {V : JSValue → Except JSError JSValue}
    (hok : Toi.obj.stepOk missing value key V = true)
    (output : List (String × JSValue)) (reasons : Option (List (String × VError))) :
    Toi.obj.keysStep missing value key V output reasons =
      .ok (output ++ [(key, okOut V (getProp value key))], reasons) := by
  unfold Toi.obj.stepOk at hok
  rw [Bool.and_eq_true] at hok
  obtain ⟨hpres, hcall⟩ := hok
  unfold Toi.obj.keysStep
  have hc : (!hasOwn value key && !missing.contains key) = false := by
    cases h1 : hasOwn value key
    · cases h2 : missing.contains key
      · rw [h1, h2] at hpres; exact Bool.noConfusion hpres
      · rfl
    · rfl
  rw [hc]
  simp only [Bool.false_eq_true, if_false]
  unfold Toi.isOk at hcall
  cases hv : V (getProp value key) with
  | ok y => rw [okOut_eq_of_ok hv]
  | error e => rw [hv] at hcall; simp at hcall

theorem keysStep_no_validation_error {missing : List String} {value : JSValue} {key : String}
    {V : JSValue → Except JSError JSValue} {output : List (String × JSValue)}
    {reasons : Option (List (String × VError))} {e : JSError}
    (h : Toi.obj.keysStep missing value key V output reasons = .error e) :
    ∃ n, e = .other n := by
  unfold Toi.obj.keysStep at h
  by_cases hc : (!hasOwn value key && !missing.contains key) = true
  · rw [if_pos hc] at h
    cases h
  · rw [if_neg hc] at h
    cases hcall : V (getProp value key) with
    | ok y => rw [hcall] at h; cases h
    | error e2 =>
      cases e2 with
      | validation ve => rw [hcall] at h; cases h
      | other n =>
        rw [hcall] at h
        cases h
        exact ⟨n, rfl⟩

theorem keysLoop_allok {missing : List String} {value : JSValue} :
    ∀ (struct : List (String × (JSValue → Except JSError JSValue))),
      (∀ kv ∈ struct, Toi.obj.stepOk missing value kv.1 kv.2 = true) →
      ∀ output reasons,
        Toi.obj.keysLoop missing value struct output reasons =
          .ok (output ++ struct.map (fun kv => (kv.1, okOut kv.2 (getProp value kv.1))), reasons) := by
  intro struct
  induction struct with
  | nil =>
    intro _ output reasons
    simp [Toi.obj.keysLoop]
  | cons kv rest ih =>
    intro hok output reasons
    obtain ⟨key, V⟩ := kv
    have hstep := keysStep_ok_of_stepOk (hok (key, V) (List.mem_cons_self _ _)) output reasons
    simp only [Toi.obj.keysLoop, hstep]
    rw [ih (fun kv h => hok kv (List.mem_cons_of_mem _ h))]
    simp

theorem keysLoop_some_stays {missing : List String} {value : JSValue} :
    ∀ (struct : List (String × (JSValue → Except JSError JSValue)))
      (output : List (String × JSValue)) (rs : List (String × VError))
      (O : List (String × JSValue)) (R : Option (List (String × VError))),
      Toi.obj.keysLoop missing value struct output (some rs) = .ok (O, R) →
      ∃ rs2, R = some rs2 := by
  intro struct
  induction struct with
  | nil =>
    intro output rs O R h
    simp only [Toi.obj.keysLoop] at h
    cases h
    exact ⟨rs, rfl⟩
  | cons kv rest ih =>
    intro output rs O R h
    obtain ⟨key, V⟩ := kv
    simp only [Toi.obj.keysLoop] at h
    cases hstep : Toi.obj.keysStep missing value key V output (some rs) with
    | ok pr =>
      obtain ⟨o1, r1⟩ := pr
      rw [hstep] at h
      obtain ⟨rs2, hr2⟩ := keysStep_some_stays hstep
      subst hr2
      exact ih o1 rs2 O R h
    | error e =>
      rw [hstep] at h
      cases h

theorem keysLoop_none_inversion {missing : List String} {value : JSValue} :
    ∀ (struct : List (String × (JSValue → Except JSError JSValue)))
      (output O : List (String × JSValue)) (reasons : Option (List (String × VError))),
      Toi.obj.keysLoop missing value struct output reasons = .ok (O, none) →
      reasons = none ∧ O.map Prod.fst = output.map Prod.fst ++ struct.map Prod.fst := by
  intro struct
  induction struct with
  | nil =>
    intro output O reasons h
    simp only [Toi.obj.keysLoop] at h
    cases h
    exact ⟨rfl, by simp⟩
  | cons kv rest ih =>
    intro output O reasons h
    obtain ⟨key, V⟩ := kv
    simp only [Toi.obj.keysLoop] at h
    cases hstep : Toi.obj.keysStep missing value key V output reasons with
    | ok pr =>
      obtain ⟨o1, r1⟩ := pr
      rw [hstep] at h
      have hr1 : r1 = none := by
        cases r1 with
        | none => rfl
        | some rs1 =>
          obtain ⟨rs2, hr2⟩ := keysLoop_some_stays rest o1 rs1 O none h
          cases hr2
      subst hr1
      obtain ⟨hreasons, y, hy, ho1⟩ := keysStep_ok_inversion hstep
      obtain ⟨_, hmap⟩ := ih o1 O none h
      refine ⟨hreasons, ?_⟩
      rw [hmap, ho1]
      simp
    | error e =>
      rw [hstep] at h
      cases h

theorem keysLoop_other {missing : List String} {value : JSValue}
    {key : String} {V : JSValue → Except JSError JSValue} {n : String}
    (hpres : (hasOwn value key || missing.contains key) = true)
    (hthrow : V (getProp value key) = .error (.other n)) :
    ∀ (pre post : List (String × (JSValue → Except JSError JSValue))),
      (∀ kv ∈ pre, Toi.obj.stepOther missing value kv.1 kv.2 = false) →
      ∀ output reasons,
        Toi.obj.keysLoop missing value (pre ++ (key, V) :: post) output reasons =
          .error (.other n) := by
  intro pre
  induction pre with
  | nil =>
    intro post _ output reasons
    simp only [List.nil_append, Toi.obj.keysLoop]
    have hstep : Toi.obj.keysStep missing value key V output reasons = .error (.other n) := by
      unfold Toi.obj.keysStep
      have hc : (!hasOwn value key && !missing.contains key) = false := by
        cases h1 : hasOwn value key
        · cases h2 : missing.contains key
          · rw [h1, h2] at hpres; exact Bool.noConfusion hpres
          · rfl
        · rfl
      rw [hc]
      simp only [Bool.false_eq_true, if_false]
      rw [hthrow]
    rw [hstep]
  | cons kv rest ih =>
    intro post hno output reasons
    obtain ⟨k1, V1⟩ := kv
    simp only [List.cons_append, Toi.obj.keysLoop]
    obtain ⟨o1, r1, hstep⟩ :=
      keysStep_no_other_ok (hno (k1, V1) (List.mem_cons_self _ _)) output reasons
    rw [hstep]
    exact ih post (fun kv h => hno kv (List.mem_cons_of_mem _ h)) o1 r1

theorem keysLoop_no_validation_error {missing : List String} {value : JSValue} :
    ∀ (struct : List (String × (JSValue → Except JSError JSValue)))
      (output : List (String × JSValue)) (reasons : Option (List (String × VError)))
      (e : JSError),
      Toi.obj.keysLoop missing value struct output reasons = .error e →
      ∃ n, e = .other n := by
  intro struct
  induction struct with
  | nil =>
    intro output reasons e h
    simp only [Toi.obj.keysLoop] at h
    exact Except.noConfusion h
  | cons kv rest ih =>
    intro output reasons e h
    obtain ⟨key, V⟩ := kv
    simp only [Toi.obj.keysLoop] at h
    cases hstep : Toi.obj.keysStep missing value key V output reasons with
    | ok pr =>
      obtain ⟨o1, r1⟩ := pr
      rw [hstep] at h
      exact ih o1 r1 e h
    | error e2 =>
      rw [hstep] at h
      cases h
      exact keysStep_no_validation_error hstep

theorem getProp_of_not_hasOwn {v : JSValue} {key : String}
    (h : hasOwn v key = false) : getProp v key = .vUndefined := by
  cases v with
  | vObj id fields =>
    simp only [Toi.hasOwn] at h
    simp only [Toi.getProp]
    cases hl : List.lookup key fields with
    | none => rfl
    | some x => rw [hl] at h; simp at h
  | vArr id elems =>
    simp only [Toi.hasOwn] at h
    simp only [Toi.getProp]
    rw [Bool.or_eq_false_iff] at h
    obtain ⟨h1, h2⟩ := h
    simp only [h1, Bool.false_eq_true, if_false]
    cases ht : key.toNat? with
    | none => rfl
    | some i =>
      simp only [ht] at h2
      simp only [decide_eq_false_iff_not, Nat.not_lt] at h2
      exact List.getD_eq_default _ _ h2
  | vStr s =>
    simp only [Toi.hasOwn] at h
    simp only [Toi.getProp]
    rw [Bool.or_eq_false_iff] at h
    obtain ⟨h1, h2⟩ := h
    simp only [h1, Bool.false_eq_true, if_false]
    cases ht : key.toNat? with
    | none => rfl
    | some i =>
      simp only [ht] at h2
      simp only [decide_eq_false_iff_not, Nat.not_lt] at h2
      have hg : s.toList.get? i = none := List.get?_eq_none.mpr (by simpa using h2)
      dsimp only
      rw [hg]
  | vNull => rfl
  | vUndefined => rfl
  | vBool b => rfl
  | vNum n => rfl
  | vNaN => rfl

/-- C6: a non-`ValidationError` thrown by a child validator propagates
immediately and unchanged out of both aggregators: for `array.items`, if
the item validator throws a defect at index `j` (and no defect earlier),
the whole call throws that exact error, no matter what the validator does
on later indices and with no reasons aggregation; for `obj.keys`, if the
key validator of some declared key throws a defect (and no earlier
declared key does), the whole call throws that exact error, regardless of
the keys declared after it. -/
theorem toi_aggregators_propagate_defects :
    (∀ (itemV : JSValue → Except JSError JSValue) (freshId id : Nat)
        (elems : List JSValue) (j : Nat) (n : String),
      j < elems.length →
      (∀ i, i < j → isOther (itemV (elems.getD i .vUndefined)) = false) →
      itemV (elems.getD j .vUndefined) = .error (.other n) →
      Toi.array.items itemV freshId (.vArr id elems) = .error (.other n)) ∧
    (∀ (pre post : List (String × (JSValue → Except JSError JSValue)))
        (key : String) (V : JSValue → Except JSError JSValue)
        (missing : List String) (freshId : Nat) (value : JSValue) (n : String),
      isNullish value = false →
      (∀ kv ∈ pre, Toi.obj.stepOther missing value kv.1 kv.2 = false) →
      (hasOwn value key || missing.contains key) = true →
      V (getProp value key) = .error (.other n) →
      Toi.obj.keys (pre ++ (key, V) :: post) missing freshId value = .error (.other n)) := by
  constructor
  · intro itemV freshId id elems j n hj hpre hthrow
    have hloop := itemsLoop_other_spec itemV (.vArr id elems) elems.length
      elems.length 0 none none j n (by omega) (by omega) hj
      (fun i _ h2 => hpre i h2) hthrow
    simp only [Toi.array.items, Toi.truthy, Bool.not_true, Bool.false_eq_true, if_false,
      Toi.jsLen]
    rw [hloop]
  · intro pre post key V missing freshId value n hnn hpre hpres hthrow
    have hloop := keysLoop_other hpres hthrow pre post hpre [] none
    simp only [Toi.obj.keys, hnn, Bool.false_eq_true, if_false]
    rw [hloop]

/-- C5 counterexample: an object input carrying the key `"c"` that is not
declared in the structure is NOT rejected by `obj.keys` — it validates
successfully (no `ValidationError` is produced), refuting strict key-set
membership as stated. -/
theorem toi_keys_unknown_key_not_rejected :
    Toi.obj.keys [("a", Toi.str.is.fn)] [] 5 (.vObj 0 [("a", .vStr "x"), ("c", .vStr "y")]) =
      .ok (.vObj 5 [("a", .vStr "x")]) ∧
    isVErr (Toi.obj.keys [("a", Toi.str.is.fn)] [] 5
      (.vObj 0 [("a", .vStr "x"), ("c", .vStr "y")])) = false :=
  ⟨rfl, rfl⟩

/-- C5 (amended): `obj.keys` validates only the declared keys; an input
object is never rejected for containing undeclared keys — whenever every
declared key is present (or allowed missing) and its validator succeeds,
the whole validation succeeds regardless of any other keys of the input,
and the output record contains exactly the declared keys. -/
theorem toi_keys_ignores_undeclared_keys
    (struct : List (String × (JSValue → Except JSError JSValue)))
    (missing : List String) (freshId id : Nat) (fields : List (String × JSValue))
    (hok : ∀ kv ∈ struct, Toi.obj.stepOk missing (.vObj id fields) kv.1 kv.2 = true) :
    Toi.obj.keys struct missing freshId (.vObj id fields) =
      .ok (.vObj freshId
        (struct.map fun kv => (kv.1, okOut kv.2 (getProp (.vObj id fields) kv.1)))) ∧
    (struct.map fun kv => (kv.1, okOut kv.2 (getProp (.vObj id fields) kv.1))).map Prod.fst =
      struct.map Prod.fst := by
  constructor
  · have hloop := keysLoop_allok struct hok [] none
    simp only [Toi.obj.keys, Toi.isNullish, Bool.false_eq_true, if_false]
    rw [hloop]
    simp
  · simp

/-- C7: whenever `obj.keys` succeeds on an object input, the returned
record is the freshly allocated one (allocation id `freshId`) — never the
input reference whenever `freshId` differs from the input's id, even when
no value was transformed — and it has entries exactly for the structure's
declared keys: keys of the input that are undeclared are neither copied
nor flagged. -/
theorem toi_keys_fresh_output
    (struct : List (String × (JSValue → Except JSError JSValue)))
    (missing : List String) (freshId id : Nat) (fields : List (String × JSValue))
    (out : JSValue)
    (hsucc : Toi.obj.keys struct missing freshId (.vObj id fields) = .ok out) :
    ∃ outFields, out = .vObj freshId outFields ∧
      outFields.map Prod.fst = struct.map Prod.fst ∧
      (freshId ≠ id → jsEq out (.vObj id fields) = false) := by
  simp only [Toi.obj.keys, Toi.isNullish, Bool.false_eq_true, if_false] at hsucc
  cases hloop : Toi.obj.keysLoop missing (.vObj id fields) struct [] none with
  | error e =>
    rw [hloop] at hsucc
    cases hsucc
  | ok pr =>
    obtain ⟨O, R⟩ := pr
    rw [hloop] at hsucc
    cases R with
    | some rs => cases hsucc
    | none =>
      cases hsucc
      obtain ⟨_, hmap⟩ := keysLoop_none_inversion struct [] O none hloop
      refine ⟨O, rfl, by simpa using hmap, fun hne => ?_⟩
      simp only [Toi.jsEq]
      simpa using hne

/-- C8: per-declared-key handling of a physically absent key in
`obj.keys`: if the key is in the allowed-missing set, the key validator IS
invoked, on `undefined` (the read of the absent property), and its output
or `ValidationError` is recorded for that key exactly as for a present
key; if the key is not in the allowed-missing set, a
"key … in value is missing" `ValidationError` is recorded for that key and
the key validator is never invoked (the step's result is the same for
every validator). -/
theorem toi_keys_missing_key_branches (missing : List String) (value : JSValue)
    (key : String) (output : List (String × JSValue))
    (reasons : Option (List (String × VError)))
    (habs : hasOwn value key = false) :
    ((missing.contains key = true →
      ∀ V, Toi.obj.keysStep missing value key V output reasons =
        match V .vUndefined with
        | .ok y => .ok (output ++ [(key, y)], reasons)
        | .error (.validation ve) => .ok (output, some ((reasons.getD []) ++ [(key, ve)]))
        | .error (.other n) => .error (.other n)) ∧
     (missing.contains key = false →
      ∀ V W, Toi.obj.keysStep missing value key V output reasons =
          .ok (output, some ((reasons.getD []) ++
            [(key, .leaf (s!"key {key} in value is missing") (.vStr key))])) ∧
        Toi.obj.keysStep missing value key V output reasons =
          Toi.obj.keysStep missing value key W output reasons)) := by
  have hgp : getProp value key = .vUndefined := getProp_of_not_hasOwn habs
  constructor
  · intro hmem V
    unfold Toi.obj.keysStep
    rw [habs, hmem, hgp]
    rfl
  · intro hmiss V W
    constructor
    · unfold Toi.obj.keysStep
      rw [habs, hmiss]
      rfl
    · unfold Toi.obj.keysStep
      rw [habs, hmiss]
      rfl

/-- C9 counterexample: the per-key `ValidationError` recorded when the
declared, non-allowed-missing key `"b"` is physically absent from the
input object `{}` has `value` equal to the string `"b"` — the key's NAME —
which is neither the absent key's value (`undefined`) nor the offending
input object, refuting the claim that every produced `ValidationError`
carries the exact value that failed validation. -/
theorem toi_keys_missing_key_error_value_is_key_name :
    Toi.obj.keys [("b", Toi.str.is.fn)] [] 7 (.vObj 0 []) =
      .error (.validation (.keyed "value does not match structure" (.vObj 0 [])
        [("b", .leaf "key b in value is missing" (.vStr "b"))])) ∧
    (JSValue.vStr "b" ≠ .vUndefined) ∧ (JSValue.vStr "b" ≠ .vObj 0 []) :=
  ⟨rfl, fun h => JSValue.noConfusion h, fun h => JSValue.noConfusion h⟩

/-- C9 (amended): the `value` field of every `ValidationError` produced by
the system holds the exact offending input — the aggregate errors of
`array.items` and `obj.keys` carry the original input (by reference: the
very same value of the model), the `allow` failure and the `required`
failure carry the validated value itself — EXCEPT the per-key
`ValidationError` recorded for a declared, non-allowed-missing key that is
physically absent, whose `value` is the key's name (a string), not the
failing value. -/
theorem toi_verror_value_field :
    (∀ (itemV : JSValue → Except JSError JSValue) (freshId : Nat) (v : JSValue) (e : VError),
      Toi.array.items itemV freshId v = .error (.validation e) → e.value = v) ∧
    (∀ (struct : List (String × (JSValue → Except JSError JSValue)))
        (missing : List String) (freshId : Nat) (v : JSValue) (e : VError),
      Toi.obj.keys struct missing freshId v = .error (.validation e) → e.value = v) ∧
    (∀ (p : JSValue → Except JSError Bool) (f : String) (v : JSValue),
      isNullish v = false → p v = .ok false →
      Toi.allow p f v = .error (.validation (.leaf f v))) ∧
    (∀ v : JSValue, isNullish v = true →
      Toi.required.fn v = .error (.validation (.leaf "value is null or undefined" v))) ∧
    (∀ (missing : List String) (value : JSValue) (key : String)
        (V : JSValue → Except JSError JSValue) (output : List (String × JSValue))
        (reasons : Option (List (String × VError))),
      hasOwn value key = false → missing.contains key = false →
      Toi.obj.keysStep missing value key V output reasons =
        .ok (output, some ((reasons.getD []) ++
          [(key, .leaf (s!"key {key} in value is missing") (.vStr key))]))) := by
  refine ⟨?_, ?_, ?_, ?_, ?_⟩
  · intro itemV freshId v e h
    simp only [Toi.array.items] at h
    by_cases ht : truthy v
    · rw [ht] at h
      simp only [Bool.not_true, Bool.false_eq_true, if_false] at h
      cases hloop : Toi.array.itemsLoop itemV v (jsLen v) (jsLen v) 0 none none with
      | error e2 =>
        rw [hloop] at h
        cases h
        obtain ⟨n, hn⟩ := itemsLoop_no_validation_error itemV v (jsLen v) _ _ _ _ _ hloop
        cases hn
      | ok pr =>
        obtain ⟨O, R⟩ := pr
        rw [hloop] at h
        cases R with
        | some rs =>
          cases h
          rfl
        | none =>
          cases O with
          | some out => cases h
          | none => cases h
    · have htf : truthy v = false := by revert ht; cases truthy v <;> simp
      rw [htf] at h
      simp at h
  · intro struct missing freshId v e h
    simp only [Toi.obj.keys] at h
    by_cases hn : isNullish v
    · rw [hn] at h
      simp at h
    · have hnf : isNullish v = false := by revert hn; cases isNullish v <;> simp
      rw [hnf] at h
      simp only [Bool.false_eq_true, if_false] at h
      cases hloop : Toi.obj.keysLoop missing v struct [] none with
      | error e2 =>
        rw [hloop] at h
        cases h
        obtain ⟨n, hn2⟩ := keysLoop_no_validation_error struct [] none _ hloop
        cases hn2
      | ok pr =>
        obtain ⟨O, R⟩ := pr
        rw [hloop] at h
        cases R with
        | some rs =>
          cases h
          rfl
        | none => cases h
  · intro p f v hnn hp
    simp [Toi.allow, hnn, hp]
  · intro v hv
    simp [Toi.required, Toi.wrap, hv]
  · intro missing value key V output reasons habs hmiss
    unfold Toi.obj.keysStep
    rw [habs, hmiss]
    rfl

/-- Witness for C3 at a concrete run: `["a", "b", 1]` against the string
validator fails with reasons recorded at exactly the failing index. -/
theorem toi_items_collects_all_failures_witness :
    Toi.array.items Toi.str.is.fn 5 (.vArr 0 [.vStr "a", .vStr "b", .vNum 1]) =
      .error (.validation (.positional "value is an array of invalid items"
        (.vArr 0 [.vStr "a", .vStr "b", .vNum 1])
        [none, none, some (.leaf "value is not string" (.vNum 1))])) :=
  toi_items_collects_all_failures Toi.str.is.fn 5 0 [.vStr "a", .vStr "b", .vNum 1]
    (by decide) (by decide)

/-- Witness for C4 at concrete runs: the empty array returns itself; a
validation-only pass returns the original reference; a transforming pass
returns a fresh array that is not strictly equal to the input. -/
theorem toi_items_identity_preservation_witness :
    Toi.array.items Toi.str.is.fn 5 (.vArr 0 []) = .ok (.vArr 0 []) ∧
    Toi.array.items Toi.str.is.fn 5 (.vArr 0 [.vStr "a"]) = .ok (.vArr 0 [.vStr "a"]) ∧
    Toi.array.items Toi.bool.truthy.fn 5 (.vArr 0 [.vStr "a"]) = .ok (.vArr 5 [.vBool true]) ∧
    jsEq (.vArr 5 [.vBool true]) (.vArr 0 [.vStr "a"]) = false := by
  refine ⟨(toi_items_identity_preservation Toi.str.is.fn 5 0 []).1, ?_, ?_, ?_⟩
  · exact ((toi_items_identity_preservation Toi.str.is.fn 5 0 [.vStr "a"]).2
      (by decide) (fun x hx h => by simp at hx; subst hx; rfl)).1 (by decide)
  · exact (((toi_items_identity_preservation Toi.bool.truthy.fn 5 0 [.vStr "a"]).2
      (by decide) (fun x hx h => by simp at hx; subst hx; exact Bool.noConfusion h)).2
      (by decide)).1
  · exact (((toi_items_identity_preservation Toi.bool.truthy.fn 5 0 [.vStr "a"]).2
      (by decide) (fun x hx h => by simp at hx; subst hx; exact Bool.noConfusion h)).2
      (by decide)).2 (by decide)

/-- Witness for C5 (amended) at a concrete run: the input carries the
undeclared key `"c"` and still validates, producing only declared keys. -/
theorem toi_keys_ignores_undeclared_keys_witness :
    Toi.obj.keys [("a", Toi.str.is.fn)] [] 5 (.vObj 0 [("a", .vStr "x"), ("c", .vStr "y")]) =
      .ok (.vObj 5 [("a", .vStr "x")]) :=
  (toi_keys_ignores_undeclared_keys [("a", Toi.str.is.fn)] [] 5 0
    [("a", .vStr "x"), ("c", .vStr "y")] (by decide)).1

/-- Witness for C6 at a concrete run: an item validator and a key
validator throwing a `TestError`-like non-`ValidationError` make both
aggregators throw exactly that error. -/
theorem toi_aggregators_propagate_defects_witness :
    Toi.array.items (fun _ => .error (.other "TestError")) 5 (.vArr 0 [.vNum 0]) =
      .error (.other "TestError") ∧
    Toi.obj.keys [("a", fun _ => .error (.other "TestError"))] [] 5
        (.vObj 0 [("a", .vNum 0)]) =
      .error (.other "TestError") := by
  constructor
  · exact toi_aggregators_propagate_defects.1 (fun _ => .error (.other "TestError")) 5 0
      [.vNum 0] 0 "TestError" (by decide) (fun i hi => absurd hi (Nat.not_lt_zero i)) rfl
  · exact toi_aggregators_propagate_defects.2 [] [] "a" (fun _ => .error (.other "TestError"))
      [] 5 (.vObj 0 [("a", .vNum 0)]) "TestError" rfl
      (fun kv h => absurd h (List.not_mem_nil kv)) (by decide) rfl

/-- Witness for C7 at a concrete successful run: the returned record has
the fresh allocation id, exactly the declared keys, and is not strictly
equal to the input object. -/
theorem toi_keys_fresh_output_witness :
    ∃ outFields, (JSValue.vObj 5 [("a", .vStr "x")]) = .vObj 5 outFields ∧
      outFields.map Prod.fst = ([("a", Toi.str.is.fn)].map Prod.fst) ∧
      (5 ≠ 0 → jsEq (.vObj 5 [("a", .vStr "x")]) (.vObj 0 [("a", .vStr "x")]) = false) :=
  toi_keys_fresh_output [("a", Toi.str.is.fn)] [] 5 0 [("a", .vStr "x")]
    (.vObj 5 [("a", .vStr "x")]) rfl

/-- Witness for C8 at concrete runs: an allowed-missing key still runs its
validator on `undefined` (a presence-enforcing validator then fails for
that key); a non-allowed-missing absent key records the "key is missing"
error, identically for any two validators. -/
theorem toi_keys_missing_key_branches_witness :
    Toi.obj.keysStep ["b"] (.vObj 0 [("a", .vStr "x")]) "b" Toi.required.fn [] none =
      .ok ([], some [("b", .leaf "value is null or undefined" .vUndefined)]) ∧
    Toi.obj.keysStep ["b"] (.vObj 0 [("a", .vStr "x")]) "c" Toi.str.is.fn [] none =
      .ok ([], some [("c", .leaf "key c in value is missing" (.vStr "c"))]) ∧
    Toi.obj.keysStep ["b"] (.vObj 0 [("a", .vStr "x")]) "c" Toi.str.is.fn [] none =
      Toi.obj.keysStep ["b"] (.vObj 0 [("a", .vStr "x")]) "c" Toi.required.fn [] none := by
  refine ⟨?_, ?_, ?_⟩
  · exact (toi_keys_missing_key_branches ["b"] (.vObj 0 [("a", .vStr "x")]) "b" [] none
      (by decide)).1 (by decide) Toi.required.fn
  · exact ((toi_keys_missing_key_branches ["b"] (.vObj 0 [("a", .vStr "x")]) "c" [] none
      (by decide)).2 (by decide) Toi.str.is.fn Toi.required.fn).1
  · exact ((toi_keys_missing_key_branches ["b"] (.vObj 0 [("a", .vStr "x")]) "c" [] none
      (by decide)).2 (by decide) Toi.str.is.fn Toi.required.fn).2

/-- Witness for C9 (amended) at concrete runs of every conjunct. -/
theorem toi_verror_value_field_witness :
    VError.value (.positional "value is an array of invalid items" (.vArr 0 [.vNum 1])
      [some (.leaf "value is not string" (.vNum 1))]) = .vArr 0 [.vNum 1] ∧
    VError.value (.keyed "value does not match structure" (.vObj 0 [("a", .vNum 1)])
      [("a", .leaf "value is not string" (.vNum 1))]) = .vObj 0 [("a", .vNum 1)] ∧
    Toi.allow (fun v => .ok (jsTypeof v == "string")) "value is not string" (.vNum 1) =
      .error (.validation (.leaf "value is not string" (.vNum 1))) ∧
    Toi.required.fn .vNull =
      .error (.validation (.leaf "value is null or undefined" .vNull)) ∧
    Toi.obj.keysStep [] (.vObj 0 []) "b" Toi.str.is.fn [] none =
      .ok ([], some [("b", .leaf "key b in value is missing" (.vStr "b"))]) := by
  refine ⟨?_, ?_, ?_, ?_, ?_⟩
  · exact toi_verror_value_field.1 Toi.str.is.fn 5 (.vArr 0 [.vNum 1]) _ rfl
  · exact toi_verror_value_field.2.1 [("a", Toi.str.is.fn)] [] 5 (.vObj 0 [("a", .vNum 1)])
      _ rfl
  · exact toi_verror_value_field.2.2.1 (fun v => .ok (jsTypeof v == "string"))
      "value is not string" (.vNum 1) rfl rfl
  · exact toi_verror_value_field.2.2.2.1 .vNull rfl
  · exact toi_verror_value_field.2.2.2.2 [] (.vObj 0 []) "b" Toi.str.is.fn [] none rfl rfl

/-- Witness for C10 at every falsy value kind, with an item validator that
would throw a defect if it were ever invoked. -/
theorem toi_items_falsy_passthrough_witness :
    Toi.array.items (fun _ => .error (.other "defect")) 3 (.vNum 0) = .ok (.vNum 0) ∧
    Toi.array.items (fun _ => .error (.other "defect")) 3 (.vStr "") = .ok (.vStr "") ∧
    Toi.array.items (fun _ => .error (.other "defect")) 3 (.vBool false) = .ok (.vBool false) ∧
    Toi.array.items (fun _ => .error (.other "defect")) 3 .vNaN = .ok .vNaN ∧
    Toi.array.items (fun _ => .error (.other "defect")) 3 .vNull = .ok .vNull ∧
    Toi.array.items (fun _ => .error (.other "defect")) 3 .vUndefined = .ok .vUndefined :=
  ⟨toi_items_falsy_passthrough _ 3 (.vNum 0) rfl,
   toi_items_falsy_passthrough _ 3 (.vStr "") rfl,
   toi_items_falsy_passthrough _ 3 (.vBool false) rfl,
   toi_items_falsy_passthrough _ 3 .vNaN rfl,
   toi_items_falsy_passthrough _ 3 .vNull rfl,
   toi_items_falsy_passthrough _ 3 .vUndefined rfl⟩
